import Mathlib

/-!
Shallow embedding of `cupy/random/distributions.py` and of the sampling core
it dispatches to (the `cupy.random.generator` Random State).  The façade
functions (`normal`, `standard_normal`, `lognormal`, `uniform`, `binomial`,
`beta`, `gamma`, `dirichlet`) are translated directly from the source file;
the Random State / Bit Generator core is not part of the source tree, so its
operations are modelled from the specification (each such definition carries a
`Modelled from the spec:` doc comment).  Machine floating point is modelled by
exact arithmetic: raw bits and counters are `Nat`, uniform variates are `Rat`,
transcendental transforms live in `Real`.
-/

namespace CupyRandom

/-- Element dtypes of the output descriptor: two float precisions and two
integer precisions. -/
inductive Dtype
  | float32
  | float64
  | int32
  | int64
deriving DecidableEq

/-- A dtype belongs to the float family (valid for the float-valued
distributions). -/
def isFloatDtype : Dtype → Bool
  | .float32 => true
  | .float64 => true
  | _ => false

/-- A dtype belongs to the integer family (valid for `binomial`). -/
def isIntDtype : Dtype → Bool
  | .int32 => true
  | .int64 => true
  | _ => false

/-- Error taxonomy of the sampling core. -/
inductive Err
  | invalidParameter
  | unsupportedDtype
  | shapeMismatch
  | samplingFailure
deriving DecidableEq

/-- Requested output shape: `none` means a zero-dimensional (scalar) array,
`some dims` an explicit shape. -/
def Size : Type := Option (List Nat)

/-- Shape resolution: `size=None` resolves to the empty (0-dimensional)
shape, an explicit size resolves to itself. -/
def resolveShape : Size → List Nat
  | none => []
  | some dims => dims

/-- Number of elements of a resolved shape (the empty shape is a scalar with
one element). -/
def numel (shape : List Nat) : Nat := shape.prod

/-- Modelled from the spec: the Random State owns an opaque seed/counter
state, mutated monotonically by every sampling call that consumes entropy. -/
structure RState where
  seed : Nat
  counter : Nat
deriving DecidableEq

/-- Seeding a fresh Random State with seed `S` places the generator at the
start of its pseudorandom sequence. -/
def mkRState (S : Nat) : RState := ⟨S, 0⟩

/-- Advancing the counter after a call that consumed entropy for `n`
elements. -/
def RState.advance (st : RState) (n : Nat) : RState := ⟨st.seed, st.counter + n⟩

/-- Modelled from the spec: a 64-bit mixing function used by the counter-based
Bit Generator (SplitMix-style finalizer; the spec fixes only that the engine
is a counter/seed-based pure function, not the concrete mixer). -/
def mix64 (z0 : Nat) : Nat :=
  let z1 := (z0 + 0x9e3779b97f4a7c15) % 2 ^ 64
  let z2 := ((z1 ^^^ (z1 >>> 30)) * 0xbf58476d1ce4e5b9) % 2 ^ 64
  let z3 := ((z2 ^^^ (z2 >>> 27)) * 0x94d049bb133111eb) % 2 ^ 64
  (z3 ^^^ (z3 >>> 31)) % 2 ^ 64

/-- Modelled from the spec: `next_uniform_bits(stream_index, draw)` is a pure
function of the seed/counter state and the logical stream index, so each
output element has an independently addressable substream. -/
def nextBits (st : RState) (streamIdx draw : Nat) : Nat :=
  mix64 (mix64 (mix64 st.seed + st.counter) + mix64 (2 * streamIdx + 1) + draw)

/-- Number of mantissa bits used by the double-precision uniform sampler. -/
def mantissaBits : Nat := 53

/-- Modelled from the spec: the Uniform Sampler converts raw bits into a
value in `[0,1)` using the full 53-bit mantissa width. -/
def sampleUniform (bits : Nat) : Rat :=
  ((bits % 2 ^ mantissaBits : Nat) : Rat) / (2 ^ mantissaBits : Rat)

/-- Modelled from the spec: an interior-interval variant of the uniform
sampler, clamped into `(0,1)` (the spec requires excluding the exact
endpoints before a `log` is taken). -/
def sampleUniformPos (bits : Nat) : Rat :=
  ((bits % (2 ^ mantissaBits - 1) + 1 : Nat) : Rat) / (2 ^ mantissaBits : Rat)

theorem sampleUniform_nonneg (bits : Nat) : 0 ≤ sampleUniform bits := by
  unfold sampleUniform
  positivity

theorem sampleUniform_lt_one (bits : Nat) : sampleUniform bits < 1 := by
  unfold sampleUniform
  rw [div_lt_one (by norm_num)]
  have h : bits % 2 ^ mantissaBits < 2 ^ mantissaBits :=
    Nat.mod_lt _ (by norm_num [mantissaBits])
  calc ((bits % 2 ^ mantissaBits : Nat) : Rat)
      < ((2 ^ mantissaBits : Nat) : Rat) := by exact_mod_cast h
    _ = (2 ^ mantissaBits : Rat) := by push_cast; ring

theorem sampleUniformPos_pos (bits : Nat) : 0 < sampleUniformPos bits := by
  unfold sampleUniformPos
  apply div_pos _ (by norm_num [mantissaBits])
  exact_mod_cast Nat.succ_pos _

theorem sampleUniformPos_lt_one (bits : Nat) : sampleUniformPos bits < 1 := by
  unfold sampleUniformPos
  rw [div_lt_one (by norm_num [mantissaBits])]
  have h : bits % (2 ^ mantissaBits - 1) < 2 ^ mantissaBits - 1 :=
    Nat.mod_lt _ (by norm_num [mantissaBits])
  have h2 : bits % (2 ^ mantissaBits - 1) + 1 < 2 ^ mantissaBits := by
    omega
  calc ((bits % (2 ^ mantissaBits - 1) + 1 : Nat) : Rat)
      < ((2 ^ mantissaBits : Nat) : Rat) := by exact_mod_cast h2
    _ = (2 ^ mantissaBits : Rat) := by push_cast; ring

/-- Modelled from the spec: `RandomState.uniform` draws one uniform variate
per output element as `low + (high - low) * sample_uniform(bits)`. -/
def RState.uniformDraws (st : RState) (n : Nat) (low high : Rat) : List Rat :=
  (List.range n).map fun i =>
    low + (high - low) * sampleUniform (nextBits st i 0)

/-- The `uniform` façade from the source: resolves the shape and forwards to
the Random State's uniform sampler. -/
def uniform (low high : Rat) (size : Size) (dt : Dtype) (st : RState) :
    List Rat :=
  let _ := dt
  st.uniformDraws (numel (resolveShape size)) low high

/-- Helper: every uniform draw is an affine image of a `[0,1)` variate and
lies in `[low, high)` when `low < high`. -/
theorem uniformDraws_mem_Ico (st : RState) (n : Nat) (low high : Rat)
    (h : low < high) :
    (st.uniformDraws n low high).Forall fun x =>
      low ≤ x ∧ x < high ∧ ∃ u : Rat, 0 ≤ u ∧ u < 1 ∧
        x = low + (high - low) * u := by
  rw [List.forall_iff_forall_mem]
  intro x hx
  unfold RState.uniformDraws at hx
  rcases List.mem_map.mp hx with ⟨i, _, rfl⟩
  set u := sampleUniform (nextBits st i 0) with hu
  have hu0 : 0 ≤ u := sampleUniform_nonneg _
  have hu1 : u < 1 := sampleUniform_lt_one _
  have hwidth : 0 < high - low := by linarith
  refine ⟨?_, ?_, u, hu0, hu1, rfl⟩
  · nlinarith
  · nlinarith

/-- Modelled from the spec: the Box–Muller paired-uniform transform producing
one standard-normal value from two uniforms. -/
noncomputable def boxMuller (u1 u2 : ℝ) : ℝ :=
  Real.sqrt (-2 * Real.log u1) * Real.cos (2 * Real.pi * u2)

/-- Modelled from the spec: `RandomState.normal(0, 1)` fills the output with
one standard-normal value per element, each produced from that element's
substream via the paired-uniform transform. -/
noncomputable def RState.stdNormalDraws (st : RState) (n : Nat) : List ℝ :=
  (List.range n).map fun i =>
    boxMuller ((sampleUniformPos (nextBits st i 0) : Rat) : ℝ)
      ((sampleUniform (nextBits st i 1) : Rat) : ℝ)

/-- Modelled from the spec: `RandomState.normal(loc, scale)` is the affine
rescale of the standard-normal draws. -/
noncomputable def RState.normalDraws (st : RState) (n : Nat) (loc scale : ℝ) :
    List ℝ :=
  (st.stdNormalDraws n).map fun x => x * scale + loc

/-- The `normal` façade from the source: requests `rs.normal(0, 1, size,
dtype)` and then rescales in place with `cupy.multiply(x, scale, out=x)`
followed by `cupy.add(x, loc, out=x)`. -/
noncomputable def normal (loc scale : ℝ) (size : Size) (dt : Dtype)
    (st : RState) : List ℝ :=
  let _ := dt
  let x := st.normalDraws (numel (resolveShape size)) 0 1
  let x2 := x.map fun v => v * scale
  x2.map fun v => v + loc

/-- The `standard_normal` façade from the source: calls `normal(size=size,
dtype=dtype)`, i.e. `normal` with its default `loc=0.0`, `scale=1.0`. -/
noncomputable def standard_normal (size : Size) (dt : Dtype) (st : RState) :
    List ℝ :=
  normal 0 1 size dt st

/-- Helper: the façade `normal` is exactly the elementwise affine image of
the standard-normal draws of the resolved shape. -/
theorem normal_eq_affine_map (loc scale : ℝ) (size : Size) (dt : Dtype)
    (st : RState) :
    normal loc scale size dt st =
      (st.stdNormalDraws (numel (resolveShape size))).map
        fun x => x * scale + loc := by
  unfold normal RState.normalDraws
  simp [List.map_map, Function.comp]

/-- Modelled from the spec: `RandomState.lognormal(mean, sigma)` is
`exp(normal(mean, sigma))`, elementwise. -/
noncomputable def RState.lognormalDraws (st : RState) (n : Nat)
    (mean sigma : ℝ) : List ℝ :=
  (st.normalDraws n mean sigma).map Real.exp

/-- The `lognormal` façade from the source: resolves the shape and forwards
to the Random State's lognormal sampler. -/
noncomputable def lognormal (mean sigma : ℝ) (size : Size) (dt : Dtype)
    (st : RState) : List ℝ :=
  let _ := dt
  st.lognormalDraws (numel (resolveShape size)) mean sigma

/-- Modelled from the spec: one binomial variate.  Documented fast paths:
`p = 0` yields 0 and `p = 1` yields `n` without invoking the general
algorithm; otherwise direct inversion by sequential Bernoulli accumulation
(the small `n*p` regime; the large-`n` rejection envelope refines the same
contract). -/
def RState.binomialDraw (st : RState) (i : Nat) (n : Nat) (p : Rat) : Nat :=
  if p = 0 then 0
  else if p = 1 then n
  else (List.range n).countP fun j => sampleUniform (nextBits st i (j + 2)) < p

theorem binomialDraw_le (st : RState) (i n : Nat) (p : Rat) :
    st.binomialDraw i n p ≤ n := by
  unfold RState.binomialDraw
  split
  · exact Nat.zero_le _
  split
  · exact Nat.le_refl _
  · calc (List.range n).countP _ ≤ (List.range n).length :=
        List.countP_le_length _
      _ = n := List.length_range n

/-- Modelled from the spec: the Marsaglia–Tsang acceptance test.  Given the
squeezed candidate `v = (1 + c*x)^3` built from a standard-normal `x`, the
sample `d * v` is accepted when `v` is positive and the log-uniform test
passes. -/
noncomputable def mtAccept (d c x u : ℝ) : Option ℝ :=
  if 0 < (1 + c * x) ^ 3 ∧
      Real.log u < x ^ 2 / 2 + d - d * (1 + c * x) ^ 3 +
        d * Real.log ((1 + c * x) ^ 3) then
    some (d * (1 + c * x) ^ 3)
  else none

theorem mtAccept_pos {d c x u y : ℝ} (hd : 0 < d)
    (h : mtAccept d c x u = some y) : 0 < y := by
  unfold mtAccept at h
  split at h
  · rename_i hcond
    cases h
    exact mul_pos hd hcond.1
  · exact absurd h (by simp)

/-- Modelled from the spec: one rejection attempt consumes one
standard-normal candidate (two uniforms) plus one interior uniform from the
element's substream. -/
noncomputable def mtAttempt (st : RState) (i t : Nat) (d c : ℝ) : Option ℝ :=
  let x := boxMuller ((sampleUniformPos (nextBits st i (3 * t)) : Rat) : ℝ)
    ((sampleUniform (nextBits st i (3 * t + 1)) : Rat) : ℝ)
  let u : ℝ := ((sampleUniformPos (nextBits st i (3 * t + 2)) : Rat) : ℝ)
  mtAccept d c x u

/-- Modelled from the spec: the bounded rejection loop; `fuel` is the soft
retry cap, exhausting it signals a sampling failure (`none`). -/
noncomputable def mtLoop (st : RState) (i : Nat) (d c : ℝ) :
    Nat → Nat → Option ℝ
  | 0, _ => none
  | fuel + 1, t =>
    match mtAttempt st i t d c with
    | some y => some y
    | none => mtLoop st i d c fuel (t + 1)

theorem mtLoop_pos {st : RState} {i : Nat} {d c : ℝ} (hd : 0 < d) :
    ∀ fuel t y, mtLoop st i d c fuel t = some y → 0 < y := by
  intro fuel
  induction fuel with
  | zero => intro t y h; exact absurd h (by simp [mtLoop])
  | succ fuel ih =>
    intro t y h
    unfold mtLoop at h
    revert h
    cases hatt : mtAttempt st i t d c with
    | none => intro h; exact ih (t + 1) y h
    | some z =>
      intro h
      cases h
      exact mtAccept_pos hd hatt

/-- Soft retry cap of the rejection loop. -/
def retryCap : Nat := 64

/-- Modelled from the spec: one `gamma(k, 1)` variate.  For `k ≥ 1` the
Marsaglia–Tsang rejection method with `d = k - 1/3`, `c = 1 / sqrt(9 d)`;
for `k < 1` the boosting transform: draw `gamma(k + 1, 1)` and multiply by
`U ^ (1/k)` for an independent interior uniform `U`. -/
noncomputable def RState.gammaDraw (st : RState) (i : Nat) (k : ℝ) :
    Option ℝ :=
  if 1 ≤ k then
    mtLoop st (2 * i) (k - 1 / 3) (1 / Real.sqrt (9 * k - 3)) retryCap 0
  else
    (mtLoop st (2 * i) (k + 2 / 3) (1 / Real.sqrt (9 * k + 6)) retryCap 0).map
      fun y =>
        y * ((sampleUniformPos (nextBits st (2 * i + 1) 0) : Rat) : ℝ) ^
          ((1 : ℝ) / k)

theorem gammaDraw_pos {st : RState} {i : Nat} {k x : ℝ} (hk : 0 < k)
    (h : st.gammaDraw i k = some x) : 0 < x := by
  unfold RState.gammaDraw at h
  split at h
  · rename_i hk1
    exact mtLoop_pos (by linarith) retryCap 0 x h
  · rcases Option.map_eq_some'.mp h with ⟨y, hy, rfl⟩
    have hypos : 0 < y := mtLoop_pos (by linarith) retryCap 0 y hy
    have hu : (0 : ℝ) < ((sampleUniformPos (nextBits st (2 * i + 1) 0) : Rat) : ℝ) := by
      exact_mod_cast sampleUniformPos_pos _
    exact mul_pos hypos (Real.rpow_pos_of_pos hu _)

/-- Modelled from the spec: one `beta(a, b)` variate is `X / (X + Y)` where
`X` and `Y` are `gamma(a, 1)` and `gamma(b, 1)` draws from disjoint
substreams; a failure of either propagates. -/
noncomputable def RState.betaDraw (st : RState) (i : Nat) (a b : ℝ) :
    Option ℝ :=
  match st.gammaDraw (2 * i) a, st.gammaDraw (2 * i + 1) b with
  | some x, some y => some (x / (x + y))
  | _, _ => none

/-- Sequence a list of optional draws: all must succeed. -/
def seqOpt {α : Type} : List (Option α) → Option (List α)
  | [] => some []
  | none :: _ => none
  | some x :: rest => (seqOpt rest).map fun xs => x :: xs

theorem seqOpt_mem {α : Type} :
    ∀ {l : List (Option α)} {xs : List α}, seqOpt l = some xs →
      ∀ x ∈ xs, some x ∈ l := by
  intro l
  induction l with
  | nil =>
    intro xs h x hx
    cases h
    exact absurd hx (by simp)
  | cons o rest ih =>
    intro xs h x hx
    cases o with
    | none => exact absurd h (by simp [seqOpt])
    | some y =>
      unfold seqOpt at h
      rcases Option.map_eq_some'.mp h with ⟨ys, hys, rfl⟩
      rcases List.mem_cons.mp hx with rfl | hmem
      · exact List.mem_cons_self _ _
      · exact List.mem_cons_of_mem _ (ih hys x hmem)

/-- A property holding of the payload of an optional result (vacuous on a
sampling failure). -/
def OptionHolds {α : Type} (P : α → Prop) : Option α → Prop
  | none => True
  | some x => P x

/-- A property holding of the payload of a fallible result (vacuous on an
error). -/
def ExceptHolds {ε α : Type} (P : α → Prop) : Except ε α → Prop
  | .error _ => True
  | .ok x => P x

theorem betaDraw_bounds {st : RState} {i : Nat} {a b : ℝ} (ha : 0 < a)
    (hb : 0 < b) :
    OptionHolds
      (fun r => (0 < r ∧ r < 1) ∧
        ∃ x y, st.gammaDraw (2 * i) a = some x ∧
          st.gammaDraw (2 * i + 1) b = some y ∧
          0 < x ∧ 0 < y ∧ r = x / (x + y))
      (st.betaDraw i a b) := by
  unfold RState.betaDraw
  cases hx : st.gammaDraw (2 * i) a with
  | none => trivial
  | some x =>
    cases hy : st.gammaDraw (2 * i + 1) b with
    | none => trivial
    | some y =>
      have hxpos : 0 < x := gammaDraw_pos ha hx
      have hypos : 0 < y := gammaDraw_pos hb hy
      have hsum : 0 < x + y := by linarith
      refine ⟨⟨div_pos hxpos hsum, ?_⟩, x, y, rfl, rfl, hxpos, hypos, rfl⟩
      rw [div_lt_one hsum]
      linarith

/-- Modelled from the spec: K independent `gamma(alpha_j, 1)` draws, one per
component of the `alpha` vector, each from its own substream; any failure
propagates. -/
noncomputable def RState.gammaVec (st : RState) (base : Nat) :
    List ℝ → Option (List ℝ)
  | [] => some []
  | a :: rest =>
    match st.gammaDraw base a, st.gammaVec (base + 1) rest with
    | some g, some gs => some (g :: gs)
    | _, _ => none

/-- Modelled from the spec: one dirichlet output vector: draw the gamma
vector and divide each component by the vector's sum; no renormalization
beyond that single division is applied. -/
noncomputable def RState.dirichletDraw (st : RState) (i : Nat)
    (alpha : List ℝ) : Option (List ℝ) :=
  (st.gammaVec (alpha.length * i) alpha).map fun gs =>
    gs.map fun g => g / gs.sum

theorem gammaVec_pos {st : RState} :
    ∀ {alpha : List ℝ} {base : Nat} {gs : List ℝ},
      alpha.Forall (fun a => 0 < a) → st.gammaVec base alpha = some gs →
      gs.length = alpha.length ∧ gs.Forall (fun g => 0 < g) := by
  intro alpha
  induction alpha with
  | nil =>
    intro base gs _ h
    cases h
    exact ⟨rfl, trivial⟩
  | cons a rest ih =>
    intro base gs hpos h
    unfold RState.gammaVec at h
    revert h
    cases hg : st.gammaDraw base a with
    | none => intro h; exact absurd h (by simp)
    | some g =>
      cases hgs : st.gammaVec (base + 1) rest with
      | none => intro h; exact absurd h (by simp)
      | some gs0 =>
        intro h
        cases h
        simp only [List.forall_cons] at hpos ⊢
        rcases ih hpos.2 hgs with ⟨hlen, hall⟩
        exact ⟨by simp [hlen], gammaDraw_pos hpos.1 hg, hall⟩

/-- Modelled from the spec: the `RandomState.gamma` call.  Validation is
eager — dtype family first, then the parameter domain — and on any failure
the seed/counter state is returned unchanged with no output; on success the
counter advances by the entropy consumed. -/
noncomputable def RState.gammaCall (st : RState) (k scale : ℝ) (size : Size)
    (dt : Dtype) : Except Err (List ℝ) × RState :=
  if isFloatDtype dt then
    if k ≤ 0 ∨ scale ≤ 0 then (.error .invalidParameter, st)
    else
      match seqOpt ((List.range (numel (resolveShape size))).map fun i =>
          (st.gammaDraw i k).map fun x => x * scale) with
      | some xs => (.ok xs, st.advance (numel (resolveShape size)))
      | none => (.error .samplingFailure, st)
  else (.error .unsupportedDtype, st)

/-- Modelled from the spec: the `RandomState.beta` call, with the same eager
validation discipline as `gamma`. -/
noncomputable def RState.betaCall (st : RState) (a b : ℝ) (size : Size)
    (dt : Dtype) : Except Err (List ℝ) × RState :=
  if isFloatDtype dt then
    if a ≤ 0 ∨ b ≤ 0 then (.error .invalidParameter, st)
    else
      match seqOpt ((List.range (numel (resolveShape size))).map fun i =>
          st.betaDraw i a b) with
      | some xs => (.ok xs, st.advance (numel (resolveShape size)))
      | none => (.error .samplingFailure, st)
  else (.error .unsupportedDtype, st)

/-- Modelled from the spec: the `RandomState.binomial` call.  Binomial is
the integer family: the dtype gate accepts only the two integer precisions;
then `0 ≤ p ≤ 1` is validated before any sampling. -/
def RState.binomialCall (st : RState) (n : Nat) (p : Rat) (size : Size)
    (dt : Dtype) : Except Err (List Nat) × RState :=
  if isIntDtype dt then
    if p < 0 ∨ 1 < p then (.error .invalidParameter, st)
    else
      (.ok ((List.range (numel (resolveShape size))).map fun i =>
        st.binomialDraw i n p), st.advance (numel (resolveShape size)))
  else (.error .unsupportedDtype, st)

theorem optionHolds_some {α : Type} {P : α → Prop} {o : Option α} {x : α}
    (h : OptionHolds P o) (he : o = some x) : P x := by
  subst he
  exact h

theorem sum_pos_of_forall_pos :
    ∀ {gs : List ℝ}, gs.Forall (fun g => 0 < g) → gs ≠ [] → 0 < gs.sum := by
  intro gs
  induction gs with
  | nil => intro _ h; exact absurd rfl h
  | cons g rest ih =>
    intro hpos _
    simp only [List.forall_cons] at hpos
    rcases rest with _ | ⟨r, rest⟩
    · simpa using hpos.1
    · have := ih hpos.2 (by simp)
      simp only [List.sum_cons] at this ⊢
      linarith [hpos.1]

theorem sum_map_div (gs : List ℝ) (S : ℝ) :
    (gs.map fun g => g / S).sum = gs.sum / S := by
  induction gs with
  | nil => simp
  | cons g rest ih => simp [ih, add_div]

/-- C1: for every loc, scale, size and dtype, the `normal` façade returns
exactly the standard-normal draws of the resolved shape with the elementwise
affine map `x * scale + loc` applied to every element. -/
theorem normal_is_affine_of_std_draws (loc scale : ℝ) (size : Size)
    (dt : Dtype) (st : RState) :
    normal loc scale size dt st =
      (st.stdNormalDraws (numel (resolveShape size))).map
        fun x => x * scale + loc :=
  normal_eq_affine_map loc scale size dt st

/-- C2: `lognormal(mean, sigma)` is the elementwise exponential of
`normal(mean, sigma)` draws — every returned value is `e` raised to a normal
variate (hence strictly positive), not the natural log of one. -/
theorem lognormal_is_exp_of_normal (mean sigma : ℝ) (size : Size)
    (dt : Dtype) (st : RState) :
    lognormal mean sigma size dt st =
      (st.normalDraws (numel (resolveShape size)) mean sigma).map Real.exp
    ∧ (lognormal mean sigma size dt st).Forall fun v => 0 < v := by
  constructor
  · rfl
  · rw [List.forall_iff_forall_mem]
    intro v hv
    unfold lognormal RState.lognormalDraws at hv
    rcases List.mem_map.mp hv with ⟨x, _, rfl⟩
    exact Real.exp_pos x

/-- C3: when `low < high`, every element returned by `uniform` is
`low + (high - low) * u` for some `u` in `[0, 1)` and lies in the half-open
interval `[low, high)` (exact arithmetic: no rounding exception is even
needed at the upper boundary). -/
theorem uniform_in_half_open_interval (low high : Rat) (h : low < high)
    (size : Size) (dt : Dtype) (st : RState) :
    (uniform low high size dt st).Forall fun x =>
      low ≤ x ∧ x < high ∧ ∃ u : Rat, 0 ≤ u ∧ u < 1 ∧
        x = low + (high - low) * u := by
  unfold uniform
  exact uniformDraws_mem_Ico st _ low high h

theorem uniform_in_half_open_interval_witness :
    (0 : Rat) < 1 ∧
    (uniform 0 1 none Dtype.float64 (mkRState 7)).Forall fun x =>
      0 ≤ x ∧ x < 1 ∧ ∃ u : Rat, 0 ≤ u ∧ u < 1 ∧ x = 0 + (1 - 0) * u :=
  ⟨by norm_num,
   uniform_in_half_open_interval 0 1 (by norm_num) none Dtype.float64
     (mkRState 7)⟩

/-- C4: for a valid integer dtype and `0 ≤ p ≤ 1`, `binomial(n, p)`
succeeds; with `p = 0` every element is 0, with `p = 1` every element is
`n`, and in general every element is an integer in `[0, n]`. -/
theorem binomial_bounds_and_fast_paths (st : RState) (n : Nat) (p : Rat)
    (size : Size) (dt : Dtype) (hd : isIntDtype dt = true) (h0 : 0 ≤ p)
    (h1 : p ≤ 1) :
    ∃ xs, st.binomialCall n p size dt =
        (.ok xs, st.advance (numel (resolveShape size)))
      ∧ (p = 0 → xs.Forall fun x => x = 0)
      ∧ (p = 1 → xs.Forall fun x => x = n)
      ∧ xs.Forall fun x => x ≤ n := by
  unfold RState.binomialCall
  rw [hd]
  rw [if_pos rfl, if_neg (by push_neg; exact ⟨h0, h1⟩)]
  refine ⟨_, rfl, ?_, ?_, ?_⟩
  · intro hp0
    rw [List.forall_iff_forall_mem]
    intro x hx
    rcases List.mem_map.mp hx with ⟨i, _, rfl⟩
    unfold RState.binomialDraw
    rw [if_pos hp0]
  · intro hp1
    rw [List.forall_iff_forall_mem]
    intro x hx
    rcases List.mem_map.mp hx with ⟨i, _, rfl⟩
    unfold RState.binomialDraw
    rw [if_neg (by rw [hp1]; norm_num), if_pos hp1]
  · rw [List.forall_iff_forall_mem]
    intro x hx
    rcases List.mem_map.mp hx with ⟨i, _, rfl⟩
    exact binomialDraw_le st i n p

theorem binomial_bounds_and_fast_paths_witness :
    isIntDtype Dtype.int64 = true ∧ (0 : Rat) ≤ 0 ∧ (0 : Rat) ≤ 1 ∧
    ∃ xs, (mkRState 3).binomialCall 5 0 none Dtype.int64 =
        (.ok xs, (mkRState 3).advance (numel (resolveShape none)))
      ∧ ((0 : Rat) = 0 → xs.Forall fun x => x = 0)
      ∧ ((0 : Rat) = 1 → xs.Forall fun x => x = 5)
      ∧ xs.Forall fun x => x ≤ 5 :=
  ⟨rfl, le_refl 0, by norm_num,
   binomial_bounds_and_fast_paths (mkRState 3) 5 0 none Dtype.int64 rfl
     (le_refl 0) (by norm_num)⟩

/-- C5: for `a > 0` and `b > 0`, every element the `beta` call returns lies
strictly in `(0, 1)` and is `X / (X + Y)` for gamma draws `X = gamma(a,1)`,
`Y = gamma(b,1)` taken from disjoint substreams. -/
theorem beta_strictly_inside_unit_interval (a b : ℝ) (ha : 0 < a)
    (hb : 0 < b) (size : Size) (dt : Dtype) (st : RState) :
    ExceptHolds
      (fun xs => xs.Forall fun r => (0 < r ∧ r < 1) ∧
        ∃ i x y, st.gammaDraw (2 * i) a = some x ∧
          st.gammaDraw (2 * i + 1) b = some y ∧
          0 < x ∧ 0 < y ∧ r = x / (x + y))
      (st.betaCall a b size dt).1 := by
  unfold RState.betaCall
  split
  · split
    · trivial
    · cases hseq : seqOpt ((List.range (numel (resolveShape size))).map
          fun i => st.betaDraw i a b) with
      | none => trivial
      | some xs =>
        show xs.Forall _
        rw [List.forall_iff_forall_mem]
        intro r hr
        have hmem := seqOpt_mem hseq r hr
        rcases List.mem_map.mp hmem with ⟨i, _, hi⟩
        have hbd := @betaDraw_bounds st i a b ha hb
        have := optionHolds_some hbd hi
        rcases this with ⟨hrange, x, y, hx, hy, hxp, hyp, hre⟩
        exact ⟨hrange, i, x, y, hx, hy, hxp, hyp, hre⟩
  · trivial

theorem beta_strictly_inside_unit_interval_witness :
    (0 : ℝ) < 1 ∧ (0 : ℝ) < 2 ∧
    ExceptHolds
      (fun xs => xs.Forall fun r => (0 < r ∧ r < 1) ∧
        ∃ i x y, (mkRState 5).gammaDraw (2 * i) 1 = some x ∧
          (mkRState 5).gammaDraw (2 * i + 1) 2 = some y ∧
          0 < x ∧ 0 < y ∧ r = x / (x + y))
      ((mkRState 5).betaCall 1 2 none Dtype.float32).1 :=
  ⟨zero_lt_one, zero_lt_two,
   beta_strictly_inside_unit_interval 1 2 zero_lt_one zero_lt_two none
     Dtype.float32 (mkRState 5)⟩

/-- C6: for an `alpha` vector with every component positive, each dirichlet
output vector has `alpha.length` non-negative components, is obtained by
dividing independent `gamma(alpha_i, 1)` draws by their sum, and its
components sum to 1 (exactly, in real arithmetic — a fortiori within any
floating-point epsilon; no further renormalization is applied). -/
theorem dirichlet_nonneg_unit_sum (alpha : List ℝ)
    (hpos : alpha.Forall fun a => 0 < a) (hne : alpha ≠ []) (st : RState)
    (i : Nat) :
    OptionHolds
      (fun v => v.length = alpha.length ∧ (v.Forall fun x => 0 ≤ x) ∧
        v.sum = 1 ∧
        ∃ gs, st.gammaVec (alpha.length * i) alpha = some gs ∧
          v = gs.map fun g => g / gs.sum)
      (st.dirichletDraw i alpha) := by
  unfold RState.dirichletDraw
  cases hgs : st.gammaVec (alpha.length * i) alpha with
  | none => trivial
  | some gs =>
    rcases gammaVec_pos hpos hgs with ⟨hlen, hall⟩
    have hgs_ne : gs ≠ [] := by
      intro hnil
      rw [hnil] at hlen
      exact hne (List.eq_nil_of_length_eq_zero hlen.symm)
    have hS : 0 < gs.sum := sum_pos_of_forall_pos hall hgs_ne
    refine ⟨by simp [hlen], ?_, ?_, gs, rfl, rfl⟩
    · rw [List.forall_iff_forall_mem]
      intro x hx
      rcases List.mem_map.mp hx with ⟨g, hg, rfl⟩
      have hgpos : 0 < g := (List.forall_iff_forall_mem.mp hall) g hg
      exact le_of_lt (div_pos hgpos hS)
    · rw [sum_map_div]
      exact div_self (ne_of_gt hS)

theorem dirichlet_nonneg_unit_sum_witness :
    List.Forall (fun a => 0 < a) [(1 : ℝ), 2] ∧ ([(1 : ℝ), 2] ≠ []) ∧
    OptionHolds
      (fun v => v.length = [(1 : ℝ), 2].length ∧
        (v.Forall fun x => 0 ≤ x) ∧ v.sum = 1 ∧
        ∃ gs, (mkRState 9).gammaVec ([(1 : ℝ), 2].length * 0) [(1 : ℝ), 2] =
            some gs ∧ v = gs.map fun g => g / gs.sum)
      ((mkRState 9).dirichletDraw 0 [(1 : ℝ), 2]) :=
  ⟨by norm_num [List.forall_cons], by simp,
   dirichlet_nonneg_unit_sum [(1 : ℝ), 2] (by norm_num [List.forall_cons])
     (by simp) (mkRState 9) 0⟩

/-- C7: an out-of-domain shape parameter (any `k ≤ 0`, e.g. `-1.0`) makes
the `gamma` call fail with `InvalidParameter` while the seed/counter state
is returned unchanged and no output is produced — no entropy is consumed. -/
theorem gamma_invalid_shape_preserves_state (st : RState) (k scale : ℝ)
    (size : Size) (dt : Dtype) (hk : k ≤ 0) (hd : isFloatDtype dt = true) :
    st.gammaCall k scale size dt = (.error .invalidParameter, st) := by
  unfold RState.gammaCall
  rw [hd]
  rw [if_pos rfl, if_pos (Or.inl hk)]

theorem gamma_invalid_shape_preserves_state_witness :
    ((-1 : ℝ) ≤ 0) ∧ isFloatDtype Dtype.float64 = true ∧
    (mkRState 11).gammaCall (-1) 1 none Dtype.float64 =
      (.error .invalidParameter, mkRState 11) :=
  ⟨by norm_num, rfl,
   gamma_invalid_shape_preserves_state (mkRState 11) (-1) 1 none
     Dtype.float64 (by norm_num) rfl⟩

/-- C8: the dtype gate runs first: an invalid-family dtype makes the call
fail with `UnsupportedDtype` before any sampling work (state unchanged),
while a valid-family dtype never produces that error — shown for the float
family (`beta`) and the integer family (`binomial`). -/
theorem dtype_family_gate (st : RState) (a b : ℝ) (n : Nat) (p : Rat)
    (size : Size) (dt : Dtype) :
    (isFloatDtype dt = false →
      st.betaCall a b size dt = (.error .unsupportedDtype, st))
    ∧ (isFloatDtype dt = true →
      (st.betaCall a b size dt).1 ≠ .error .unsupportedDtype)
    ∧ (isIntDtype dt = false →
      st.binomialCall n p size dt = (.error .unsupportedDtype, st))
    ∧ (isIntDtype dt = true →
      (st.binomialCall n p size dt).1 ≠ .error .unsupportedDtype) := by
  refine ⟨?_, ?_, ?_, ?_⟩ <;> intro h
  · simp [RState.betaCall, h]
  · unfold RState.betaCall
    rw [h, if_pos rfl]
    split
    · intro hc
      simp at hc
    · split
      · intro hc
        simp at hc
      · intro hc
        simp at hc
  · simp [RState.binomialCall, h]
  · unfold RState.binomialCall
    rw [h, if_pos rfl]
    split
    · intro hc
      simp at hc
    · intro hc
      simp at hc

theorem dtype_family_gate_witness :
    (mkRState 0).betaCall 1 1 none Dtype.int32 =
      (.error .unsupportedDtype, mkRState 0)
    ∧ ((mkRState 0).betaCall 1 1 none Dtype.float32).1 ≠
      .error .unsupportedDtype
    ∧ (mkRState 0).binomialCall 3 (1 / 2) none Dtype.float32 =
      (.error .unsupportedDtype, mkRState 0)
    ∧ ((mkRState 0).binomialCall 3 (1 / 2) none Dtype.int32).1 ≠
      .error .unsupportedDtype :=
  ⟨(dtype_family_gate (mkRState 0) 1 1 3 (1 / 2) none Dtype.int32).1 rfl,
   (dtype_family_gate (mkRState 0) 1 1 3 (1 / 2) none Dtype.float32).2.1 rfl,
   (dtype_family_gate (mkRState 0) 1 1 3 (1 / 2) none
     Dtype.float32).2.2.1 rfl,
   (dtype_family_gate (mkRState 0) 1 1 3 (1 / 2) none
     Dtype.int32).2.2.2 rfl⟩

/-- C9: two runs that each seed a fresh Random State with the same seed `S`
and request `normal(size=(1000,))` produce identical sequences of 1000
values — the sampler is a deterministic function of seed state and shape. -/
theorem normal_deterministic_under_seed (S : Nat) (st1 st2 : RState)
    (dt : Dtype) (h1 : st1 = mkRState S) (h2 : st2 = mkRState S) :
    normal 0 1 (some [1000]) dt st1 = normal 0 1 (some [1000]) dt st2
    ∧ (normal 0 1 (some [1000]) dt st1).length = 1000 := by
  subst h1
  subst h2
  refine ⟨rfl, ?_⟩
  unfold normal RState.normalDraws RState.stdNormalDraws
  simp [numel, resolveShape]

theorem normal_deterministic_under_seed_witness :
    (mkRState 42 = mkRState 42) ∧
    (normal 0 1 (some [1000]) Dtype.float64 (mkRState 42) =
      normal 0 1 (some [1000]) Dtype.float64 (mkRState 42)
    ∧ (normal 0 1 (some [1000]) Dtype.float64 (mkRState 42)).length = 1000) :=
  ⟨rfl, normal_deterministic_under_seed 42 (mkRState 42) (mkRState 42)
    Dtype.float64 rfl rfl⟩

/-- C10: `standard_normal(size, dtype)` returns exactly what
`normal(loc=0, scale=1, size, dtype)` returns from the same generator
state, and that shared result is the raw standard-normal draw list — the
affine rescale with scale 1 and loc 0 is the identity. -/
theorem standard_normal_refines_normal (size : Size) (dt : Dtype)
    (st : RState) :
    standard_normal size dt st = normal 0 1 size dt st
    ∧ standard_normal size dt st =
      st.stdNormalDraws (numel (resolveShape size)) := by
  constructor
  · rfl
  · show normal 0 1 size dt st = _
    rw [normal_eq_affine_map]
    simp

end CupyRandom
